import Mathlib

/-!
Verification of the usdPhysics parse-prim iterators
(`pxr/usd/usdPhysics/parsePrimIterator.h`).

The file embeds the three iterator strategies
(`ParsePrimIteratorRange`, `ParsePrimIteratorMapRange`,
`ExcludeListPrimIteratorRange`) as state machines over a modelled
depth-first prim range, and proves / refutes the specified properties.
-/

namespace ParsePrim

/-- Modelled from the spec: `SdfPath` (pxr/usd/sdf/path.h, not part of the
sources under verification) is an opaque hierarchical identifier; we model it
as its list of path components.  Only equality is needed. -/
abbrev SdfPath := List String

/-- Modelled from the spec: a `UsdPrim` handle, as the traversal engine sees
it: it has a path (`GetPrimPath`) and converts to bool (validity). -/
structure Prim where
  path : SdfPath
  valid : Bool
deriving DecidableEq, Repr

/-- Modelled from the spec: the hierarchy a `UsdPrimRange` yields: a finite
acyclic tree of prims (depth-first pre-order, parent before children,
siblings in order). -/
inductive PTree : Type where
  | node : Prim → List PTree → PTree

/-- The prim at the root of a subtree. -/
def PTree.prim : PTree → Prim
  | .node p _ => p

/-- The child subtrees of a node. -/
def PTree.children : PTree → List PTree
  | .node _ cs => cs

mutual
/-- Number of nodes of a tree. -/
def sizeT : PTree → Nat
  | .node _ cs => 1 + sizeF cs
/-- Number of nodes of a forest. -/
def sizeF : List PTree → Nat
  | [] => 0
  | t :: ts => sizeT t + sizeF ts
end

/-- Modelled from the spec: a `UsdPrimRange` (pxr/usd/usd/primRange.h, not
part of the sources under verification) is a depth-first pre-order range of
prims; we model it by the forest of subtrees it yields (empty list for an
empty range, a single root for `UsdPrimRange(prim)` when the prim is
traversable). -/
abbrev Range := List PTree

/-- Modelled from the spec: a `UsdPrimRange::const_iterator`: the pre-order
position is the stack of subtrees still to visit (head = current subtree);
`PruneChildren` marks the current node so the next increment skips its
children. -/
structure Iter where
  pending : List PTree
  prune : Bool

/-- Modelled from the spec: `range.begin()`. -/
def Range.start (r : Range) : Iter := ⟨r, false⟩

/-- Modelled from the spec: `iterator::operator++`: pre-order step; consumes
the prune flag (children are skipped when it is set).  Incrementing the end
iterator is never done by the wrappers; modelled as the identity. -/
def Iter.inc (i : Iter) : Iter :=
  match i.pending with
  | [] => i
  | .node _ cs :: rest => ⟨if i.prune then rest else cs ++ rest, false⟩

/-- Modelled from the spec: `iterator::PruneChildren()`: mark the subtree of
the current node to be skipped by the next increment. -/
def Iter.pruneChildren (i : Iter) : Iter := ⟨i.pending, true⟩

/-- The prim an iterator position refers to (`*mIter`), if any. -/
def Iter.cur? (i : Iter) : Option Prim :=
  match i.pending with
  | [] => none
  | .node pr _ :: _ => some pr

/-- `mIter == mRange.end()` : the position is the end sentinel. -/
def Iter.isEnd (i : Iter) : Bool := i.pending.isEmpty

mutual
/-- Depth-first pre-order listing of a tree's prims. -/
def dfsT : PTree → List Prim
  | .node pr cs => pr :: dfsF cs
/-- Depth-first pre-order listing of a forest's prims. -/
def dfsF : List PTree → List Prim
  | [] => []
  | t :: ts => dfsT t ++ dfsF ts
end

/-- The paths occurring in a forest, in pre-order. -/
def pathsF (q : List PTree) : List SdfPath := (dfsF q).map Prim.path

theorem sizeF_append (a b : List PTree) : sizeF (a ++ b) = sizeF a + sizeF b := by
  induction a with
  | nil => simp [sizeF]
  | cons t ts ih => simp [sizeF, ih]; omega

theorem sizeT_pos (t : PTree) : 1 ≤ sizeT t := by
  cases t with
  | node pr cs => simp [sizeT]

theorem sizeF_inc_lt (pr : Prim) (cs rest : List PTree) (b : Bool) :
    sizeF (Iter.inc ⟨.node pr cs :: rest, b⟩).pending <
      sizeF (.node pr cs :: rest) := by
  cases b <;> simp [Iter.inc, sizeF, sizeF_append, sizeT]

-- ------------------------------------------------------------------ --
-- ParsePrimIteratorRange (single depth-first range)                   --
-- ------------------------------------------------------------------ --

/-- State of `ParsePrimIteratorRange`: the wrapped range and the current
iterator. -/
structure RangeState where
  mRange : Range
  mIter : Iter

/-- `ParsePrimIteratorRange::reset`: `mIter = mRange.begin()`. -/
def RangeState.reset (s : RangeState) : RangeState :=
  { s with mIter := Range.start s.mRange }

/-- `ParsePrimIteratorRange` constructor: store the range, then `reset()`.
The not-yet-assigned iterator is modelled as the default (empty) one. -/
def RangeState.init (r : Range) : RangeState :=
  RangeState.reset { mRange := r, mIter := ⟨[], false⟩ }

/-- `ParsePrimIteratorRange::atEnd`: `mIter == mRange.end()`. -/
def RangeState.atEnd (s : RangeState) : Bool := s.mIter.isEnd

/-- `ParsePrimIteratorRange::getCurrent`: returns `mIter` unconditionally. -/
def RangeState.getCurrent (s : RangeState) : Iter := s.mIter

/-- `ParsePrimIteratorRange::next`: `if (mIter != mRange.end()) mIter++`. -/
def RangeState.next (s : RangeState) : RangeState :=
  if s.mIter.isEnd then s else { s with mIter := s.mIter.inc }

/-- `ParsePrimIteratorRange::pruneChildren`:
`if (!atEnd()) mIter.PruneChildren()`. -/
def RangeState.pruneChildren (s : RangeState) : RangeState :=
  if s.atEnd then s else { s with mIter := s.mIter.pruneChildren }

-- ------------------------------------------------------------------ --
-- ParsePrimIteratorMapRange (merged roots)                            --
-- ------------------------------------------------------------------ --

/-- One entry of the `UsdPrimMap` (`std::map<const SdfPath, UsdPrim>`): the
key path and the prim.  Modelled from the spec: the two depth-first ranges
the code can build over the prim — `UsdPrimRange(prim,
UsdTraverseInstanceProxies())` (used for the first entry) and
`UsdPrimRange(prim)` (used for entries reached by rollover) — are kept as
the two forests they would yield, since the range predicate is decided at
range-construction time. -/
structure MapEntry where
  key : SdfPath
  rangeProxies : Range
  rangeDefault : Range

/-- State of `ParsePrimIteratorMapRange`.  The borrowed map is the (sorted)
list of its entries; `mPrimMapIter` is the index of the current entry. -/
structure MapState where
  mAtEnd : Bool
  mPrimMap : List MapEntry
  mPrimMapIter : Nat
  mRange : Range
  mIter : Iter

/-- `ParsePrimIteratorMapRange::reset`: start at the first map entry, build
its instance-proxy range, and only if that very first range is nonempty
position the iterator and clear `mAtEnd`.  When the first range is empty
(or the map is), `mIter` is left untouched. -/
def MapState.reset (s : MapState) : MapState :=
  let s1 := { s with mAtEnd := true, mPrimMapIter := 0 }
  match s1.mPrimMap[0]? with
  | none => s1
  | some e =>
    let r := e.rangeProxies
    if r.isEmpty then { s1 with mRange := r }
    else { s1 with mRange := r, mIter := Range.start r, mAtEnd := false }

/-- `ParsePrimIteratorMapRange` constructor: store the map, then `reset()`.
Uninitialized members are modelled as defaults. -/
def MapState.init (m : List MapEntry) : MapState :=
  MapState.reset
    { mAtEnd := true, mPrimMap := m, mPrimMapIter := 0, mRange := [],
      mIter := ⟨[], false⟩ }

/-- `ParsePrimIteratorMapRange::atEnd`: returns the `mAtEnd` flag. -/
def MapState.atEnd (s : MapState) : Bool := s.mAtEnd

/-- `ParsePrimIteratorMapRange::getCurrent`: returns `mIter`
unconditionally. -/
def MapState.getCurrent (s : MapState) : Iter := s.mIter

/-- `ParsePrimIteratorMapRange::pruneChildren`:
`if (!atEnd()) mIter.PruneChildren()`. -/
def MapState.pruneChildren (s : MapState) : MapState :=
  if s.atEnd then s else { s with mIter := s.mIter.pruneChildren }

/-- `ParsePrimIteratorMapRange::next`: step `mIter`; on reaching the end of
the current sub-range, advance the map iterator; if entries remain, rebuild
`mRange` with the default predicate and position at its begin — without
checking that this new range is nonempty; otherwise set `mAtEnd`. -/
def MapState.next (s : MapState) : MapState :=
  if s.mIter.isEnd then s
  else
    let i := s.mIter.inc
    if i.isEnd then
      let k := s.mPrimMapIter + 1
      match s.mPrimMap[k]? with
      | none => { s with mIter := i, mPrimMapIter := k, mAtEnd := true }
      | some e =>
          { s with mPrimMapIter := k, mRange := e.rangeDefault,
                   mIter := Range.start e.rangeDefault }
    else { s with mIter := i }

-- ------------------------------------------------------------------ --
-- ExcludeListPrimIteratorRange (exclusion-filtered range)             --
-- ------------------------------------------------------------------ --

/-- State of `ExcludeListPrimIteratorRange`: the wrapped range, the current
iterator, and the exclusion path set (`mPathSet`; modelled as the path list,
membership being all that is used). -/
structure ExcludeState where
  mRange : Range
  mIter : Iter
  mPathSet : List SdfPath

/-- The advance loop of `ExcludeListPrimIteratorRange::next`, acting on the
pending stack so that the head is the position just reached by `mIter++`:
an end position stops the loop; an invalid prim is stepped over (its
children stay); an excluded prim is pruned (`PruneChildren` then `mIter++`,
fused: its children and itself are dropped); a valid non-excluded prim
stops the loop. -/
def skipTo (S : List SdfPath) : List PTree → List PTree
  | [] => []
  | .node pr cs :: rest =>
    if pr.valid then
      if pr.path ∈ S then skipTo S rest
      else .node pr cs :: rest
    else skipTo S (cs ++ rest)
termination_by q => sizeF q
decreasing_by
  all_goals simp [sizeF, sizeF_append, sizeT]

/-- `ExcludeListPrimIteratorRange::reset`: `mIter = mRange.begin()` — note:
no exclusion check on the initial position. -/
def ExcludeState.reset (s : ExcludeState) : ExcludeState :=
  { s with mIter := Range.start s.mRange }

/-- `ExcludeListPrimIteratorRange` constructor: store the range, build the
path set from the path list, then `reset()`. -/
def ExcludeState.init (r : Range) (pathList : List SdfPath) : ExcludeState :=
  ExcludeState.reset { mRange := r, mIter := ⟨[], false⟩, mPathSet := pathList }

/-- `ExcludeListPrimIteratorRange::atEnd`: `mIter == mRange.end()`. -/
def ExcludeState.atEnd (s : ExcludeState) : Bool := s.mIter.isEnd

/-- `ExcludeListPrimIteratorRange::getCurrent`: returns `mIter`
unconditionally. -/
def ExcludeState.getCurrent (s : ExcludeState) : Iter := s.mIter

/-- `ExcludeListPrimIteratorRange::pruneChildren`: forwards to
`mIter.PruneChildren()` with no at-end guard. -/
def ExcludeState.pruneChildren (s : ExcludeState) : ExcludeState :=
  { s with mIter := s.mIter.pruneChildren }

/-- `ExcludeListPrimIteratorRange::next`: if not at end, `mIter++` (which
consumes a pending prune flag), then run the skip loop until a valid
non-excluded prim or the end is reached. -/
def ExcludeState.next (s : ExcludeState) : ExcludeState :=
  if s.mIter.isEnd then s
  else { s with mIter := ⟨skipTo s.mPathSet s.mIter.inc.pending, false⟩ }

-- ------------------------------------------------------------------ --
-- Driver-observed sequences                                           --
-- ------------------------------------------------------------------ --

theorem skipTo_size_le (S : List SdfPath) (q : List PTree) :
    sizeF (skipTo S q) ≤ sizeF q := by
  induction q using skipTo.induct S with
  | case1 => simp [skipTo]
  | case2 pr cs rest hv hm ih =>
      rw [skipTo]; simp [hv, hm]
      calc sizeF (skipTo S rest) ≤ sizeF rest := ih
        _ ≤ sizeF (PTree.node pr cs :: rest) := by simp [sizeF]
  | case3 pr cs rest hv hm => rw [skipTo]; simp [hv, hm]
  | case4 pr cs rest hv ih =>
      rw [skipTo]; simp [hv]
      calc sizeF (skipTo S (cs ++ rest)) ≤ sizeF (cs ++ rest) := ih
        _ ≤ sizeF (PTree.node pr cs :: rest) := by
            simp [sizeF, sizeF_append, sizeT]

theorem nextR_size (s : RangeState) (pr : Prim) (cs rest : List PTree)
    (h : s.mIter.pending = .node pr cs :: rest) :
    sizeF s.next.mIter.pending < sizeF s.mIter.pending := by
  obtain ⟨r, p, b⟩ := s
  simp only at h
  subst h
  simp [RangeState.next, Iter.isEnd]
  exact sizeF_inc_lt pr cs rest b

theorem nextE_size (s : ExcludeState) (pr : Prim) (cs rest : List PTree)
    (h : s.mIter.pending = .node pr cs :: rest) :
    sizeF s.next.mIter.pending < sizeF s.mIter.pending := by
  obtain ⟨r, ⟨p, b⟩, S⟩ := s
  simp only at h
  subst h
  simp [ExcludeState.next, Iter.isEnd]
  calc sizeF (skipTo S (Iter.inc ⟨.node pr cs :: rest, b⟩).pending)
      ≤ sizeF (Iter.inc ⟨.node pr cs :: rest, b⟩).pending :=
        skipTo_size_le _ _
    _ < sizeF (.node pr cs :: rest) := sizeF_inc_lt pr cs rest b

/-- The sequence of prims a driver loop
`while !atEnd { inspect(getCurrent()); next() }` observes on a
`ParsePrimIteratorRange`. -/
def machVisitR (s : RangeState) : List Prim :=
  match h : s.mIter.pending with
  | [] => []
  | .node pr _ :: _ => pr :: machVisitR s.next
termination_by sizeF s.mIter.pending
decreasing_by exact nextR_size s _ _ _ h

/-- The sequence of prims a driver loop observes on an
`ExcludeListPrimIteratorRange`. -/
def machVisitE (s : ExcludeState) : List Prim :=
  match h : s.mIter.pending with
  | [] => []
  | .node pr _ :: _ => pr :: machVisitE s.next
termination_by sizeF s.mIter.pending
decreasing_by exact nextE_size s _ _ _ h

/-- Remaining measure of the map entries from index `k` on (used for
termination of the multi-range driver). -/
def remS (m : List MapEntry) (k : Nat) : Nat :=
  ((m.drop k).map fun e => sizeF e.rangeDefault + 1).sum

/-- Termination measure of the multi-range driver. -/
def muM (s : MapState) : Nat :=
  sizeF s.mIter.pending + remS s.mPrimMap (s.mPrimMapIter + 1)

theorem remS_succ_le (m : List MapEntry) (k : Nat) :
    remS m (k + 1) ≤ remS m k := by
  unfold remS
  have hsub : List.Sublist (m.drop (k + 1)) (m.drop k) :=
    List.drop_sublist_drop_left m (Nat.le_succ k)
  exact List.Sublist.sum_le_sum (hsub.map _) (by intro a _; omega)

theorem remS_get (m : List MapEntry) (k : Nat) (e : MapEntry)
    (h : m[k]? = some e) :
    remS m k = sizeF e.rangeDefault + 1 + remS m (k + 1) := by
  obtain ⟨hk, he⟩ := List.getElem?_eq_some_iff.mp h
  have hd : m.drop k = m[k] :: m.drop (k + 1) := List.drop_eq_getElem_cons hk
  unfold remS
  rw [hd, he]; simp

theorem nextM_mu (s : MapState) (pr : Prim) (cs rest : List PTree)
    (h : s.mIter.pending = .node pr cs :: rest) :
    muM s.next < muM s := by
  obtain ⟨a, m, k, r, ⟨p, b⟩⟩ := s
  simp only at h
  subst h
  have hpos : 1 ≤ sizeT (PTree.node pr cs) := sizeT_pos _
  have hlt := sizeF_inc_lt pr cs rest b
  unfold MapState.next
  set i := Iter.inc ⟨PTree.node pr cs :: rest, b⟩ with hi
  simp only [Iter.isEnd, List.isEmpty_cons, Bool.false_eq_true, if_false]
  by_cases hq : i.pending.isEmpty
  · have h0 : sizeF i.pending = 0 := by
      cases hp : i.pending with
      | nil => simp [sizeF]
      | cons x xs => rw [hp] at hq; simp at hq
    simp only [hq, if_true]
    rcases hget : m[k + 1]? with _ | e
    · simp only [hget, muM]
      have h3 := remS_succ_le m (k + 1)
      simp only [h0]
      simp [sizeF]
      omega
    · simp only [hget, muM]
      have h1 := remS_get m (k + 1) e hget
      simp [sizeF, Range.start]
      omega
  · simp only [Bool.not_eq_true] at hq
    simp only [hq, Bool.false_eq_true, if_false, muM]
    simp [sizeF] at hlt ⊢
    omega

/-- The sequence of prims a driver loop observes on a
`ParsePrimIteratorMapRange`, or `none` when the driver loop never
terminates (the cursor reaches a state with `atEnd() == false` that no
`next()` call can leave). -/
def machVisitM (s : MapState) : Option (List Prim) :=
  if s.mAtEnd then some []
  else
    match h : s.mIter.pending with
    | [] => none
    | .node pr _ :: _ => (machVisitM s.next).map (pr :: ·)
termination_by muM s
decreasing_by exact nextM_mu s _ _ _ h

-- ------------------------------------------------------------------ --
-- Specification-side descriptions of the visited sequences            --
-- ------------------------------------------------------------------ --

mutual
/-- The prims of a subtree that survive exclusion filtering, assuming the
subtree is entered: an invalid root is skipped but its children are
traversed; an excluded valid root is dropped with its whole subtree; a
clean valid root is yielded and its children traversed. -/
def visitT (S : List SdfPath) : PTree → List Prim
  | .node pr cs =>
    if pr.valid then
      if pr.path ∈ S then [] else pr :: visitF S cs
    else visitF S cs
/-- `visitT` over a forest. -/
def visitF (S : List SdfPath) : List PTree → List Prim
  | [] => []
  | t :: ts => visitT S t ++ visitF S ts
end

/-- What the exclusion-filtered driver observes from a fresh position over
forest `q`: the first node unconditionally (no exclusion check on the
initial position), then the filtered remainder. -/
def headVisit (S : List SdfPath) : List PTree → List Prim
  | [] => []
  | .node pr cs :: rest => pr :: visitF S (cs ++ rest)

mutual
/-- The prims of a subtree whose own path and all ancestor paths (within
the subtree) avoid `S` — the sequence the specification expects an
exclusion-filtered traversal to visit. -/
def keptT (S : List SdfPath) : PTree → List Prim
  | .node pr cs => if pr.path ∈ S then [] else pr :: keptF S cs
/-- `keptT` over a forest. -/
def keptF (S : List SdfPath) : List PTree → List Prim
  | [] => []
  | t :: ts => keptT S t ++ keptF S ts
end

mutual
/-- `x` occurs in the tree at a position none of whose ancestors (nor
itself) has a path in `S`. -/
def cleanOccT (S : List SdfPath) (x : Prim) : PTree → Prop
  | .node pr cs => pr.path ∉ S ∧ (x = pr ∨ cleanOccF S x cs)
/-- `cleanOccT` over a forest. -/
def cleanOccF (S : List SdfPath) (x : Prim) : List PTree → Prop
  | [] => False
  | t :: ts => cleanOccT S x t ∨ cleanOccF S x ts
end

mutual
/-- Every prim of the subtree is a valid handle. -/
def allValidT : PTree → Bool
  | .node pr cs => pr.valid && allValidF cs
/-- `allValidT` over a forest. -/
def allValidF : List PTree → Bool
  | [] => true
  | t :: ts => allValidT t && allValidF ts
end

-- ------------------------------------------------------------------ --
-- Helper lemmas                                                       --
-- ------------------------------------------------------------------ --

theorem dfsF_append (a b : List PTree) : dfsF (a ++ b) = dfsF a ++ dfsF b := by
  induction a with
  | nil => simp [dfsF]
  | cons t ts ih => simp [dfsF, ih]

theorem visitF_append (S : List SdfPath) (a b : List PTree) :
    visitF S (a ++ b) = visitF S a ++ visitF S b := by
  induction a with
  | nil => simp [visitF]
  | cons t ts ih => simp [visitF, ih]

theorem keptF_append (S : List SdfPath) (a b : List PTree) :
    keptF S (a ++ b) = keptF S a ++ keptF S b := by
  induction a with
  | nil => simp [keptF]
  | cons t ts ih => simp [keptF, ih]

theorem allValidF_append (a b : List PTree) :
    allValidF (a ++ b) = (allValidF a && allValidF b) := by
  induction a with
  | nil => simp [allValidF]
  | cons t ts ih => simp [allValidF, ih, Bool.and_assoc]

theorem cleanOccF_append (S : List SdfPath) (x : Prim) (a b : List PTree) :
    cleanOccF S x (a ++ b) ↔ cleanOccF S x a ∨ cleanOccF S x b := by
  induction a with
  | nil => simp [cleanOccF]
  | cons t ts ih => simp [cleanOccF, ih, or_assoc]

theorem pathsF_cons (pr : Prim) (cs rest : List PTree) :
    pathsF (.node pr cs :: rest) = pr.path :: (pathsF cs ++ pathsF rest) := by
  simp [pathsF, dfsF, dfsT, dfsF_append]

theorem pathsF_append (a b : List PTree) :
    pathsF (a ++ b) = pathsF a ++ pathsF b := by
  simp [pathsF, dfsF_append]

theorem visitF_skipTo (S : List SdfPath) (q : List PTree) :
    visitF S (skipTo S q) = visitF S q := by
  induction q using skipTo.induct S with
  | case1 => rw [skipTo]
  | case2 pr cs rest hv hm ih =>
      rw [skipTo]; simp only [hv, hm, if_true]
      rw [ih]
      simp [visitF, visitT, hv, hm]
  | case3 pr cs rest hv hm => rw [skipTo]; simp [hv, hm]
  | case4 pr cs rest hv ih =>
      rw [skipTo]; simp only [hv, Bool.false_eq_true, if_false]
      rw [ih]
      simp [visitF, visitT, hv, visitF_append]

theorem skipTo_head_ok (S : List SdfPath) (q : List PTree) (pr : Prim)
    (cs rest : List PTree) (h : skipTo S q = .node pr cs :: rest) :
    pr.valid = true ∧ pr.path ∉ S := by
  induction q using skipTo.induct S with
  | case1 => rw [skipTo] at h; cases h
  | case2 pr' cs' rest' hv hm ih =>
      rw [skipTo] at h; simp only [hv, hm, if_true] at h
      exact ih h
  | case3 pr' cs' rest' hv hm =>
      rw [skipTo] at h; simp only [hv, hm, if_true, if_false] at h
      cases h; exact ⟨hv, hm⟩
  | case4 pr' cs' rest' hv ih =>
      rw [skipTo] at h; simp only [hv, Bool.false_eq_true, if_false] at h
      exact ih h

theorem pathsF_skipTo_sub (S : List SdfPath) (q : List PTree) (p : SdfPath)
    (h : p ∈ pathsF (skipTo S q)) : p ∈ pathsF q := by
  induction q using skipTo.induct S with
  | case1 => rw [skipTo] at h; exact h
  | case2 pr cs rest hv hm ih =>
      rw [skipTo] at h; simp only [hv, hm, if_true] at h
      rw [pathsF_cons]
      have := ih h
      simp [this]
  | case3 pr cs rest hv hm =>
      rw [skipTo] at h; simp only [hv, hm, if_true, if_false] at h
      exact h
  | case4 pr cs rest hv ih =>
      rw [skipTo] at h; simp only [hv, Bool.false_eq_true, if_false] at h
      have := ih h
      rw [pathsF_append] at this
      rw [pathsF_cons]
      simp at this ⊢
      tauto

theorem drop_get?_cons (m : List MapEntry) (k : Nat) (e : MapEntry)
    (h : m[k]? = some e) : m.drop k = e :: m.drop (k + 1) := by
  obtain ⟨hk, he⟩ := List.getElem?_eq_some_iff.mp h
  have hd : m.drop k = m[k] :: m.drop (k + 1) := List.drop_eq_getElem_cons hk
  rw [hd, he]

theorem drop_get?_none (m : List MapEntry) (k : Nat)
    (h : m[k]? = none) : m.drop k = [] := by
  exact List.drop_eq_nil_of_le (List.getElem?_eq_none_iff.mp h)

-- machine unfolding equations

theorem machVisitR_nil (s : RangeState) (h : s.mIter.pending = []) :
    machVisitR s = [] := by
  rw [machVisitR.eq_def]
  split
  · rfl
  · rename_i pr cs rest hp
    rw [h] at hp; cases hp

theorem machVisitR_cons (s : RangeState) (pr : Prim) (cs rest : List PTree)
    (h : s.mIter.pending = .node pr cs :: rest) :
    machVisitR s = pr :: machVisitR s.next := by
  rw [machVisitR.eq_def]
  split
  · rename_i hp; rw [h] at hp; cases hp
  · rename_i pr' cs' rest' hp
    rw [h] at hp
    cases hp
    rfl

theorem machVisitE_nil (s : ExcludeState) (h : s.mIter.pending = []) :
    machVisitE s = [] := by
  rw [machVisitE.eq_def]
  split
  · rfl
  · rename_i pr cs rest hp
    rw [h] at hp; cases hp

theorem machVisitE_cons (s : ExcludeState) (pr : Prim) (cs rest : List PTree)
    (h : s.mIter.pending = .node pr cs :: rest) :
    machVisitE s = pr :: machVisitE s.next := by
  rw [machVisitE.eq_def]
  split
  · rename_i hp; rw [h] at hp; cases hp
  · rename_i pr' cs' rest' hp
    rw [h] at hp
    cases hp
    rfl

theorem machVisitM_atEnd (s : MapState) (h : s.mAtEnd = true) :
    machVisitM s = some [] := by
  rw [machVisitM.eq_def, h]
  rfl

theorem machVisitM_stuck (s : MapState) (h1 : s.mAtEnd = false)
    (h2 : s.mIter.pending = []) : machVisitM s = none := by
  rw [machVisitM.eq_def, h1]
  simp only [Bool.false_eq_true, if_false]
  split
  · rfl
  · rename_i pr cs rest hp
    rw [h2] at hp; cases hp

theorem machVisitM_cons (s : MapState) (pr : Prim) (cs rest : List PTree)
    (h1 : s.mAtEnd = false) (h2 : s.mIter.pending = .node pr cs :: rest) :
    machVisitM s = (machVisitM s.next).map (pr :: ·) := by
  rw [machVisitM.eq_def, h1]
  simp only [Bool.false_eq_true, if_false]
  split
  · rename_i hp; rw [h2] at hp; cases hp
  · rename_i pr' cs' rest' hp
    rw [h2] at hp
    cases hp
    rfl

-- bridges between the machines and the specification-side sequences

theorem machVisitR_eq_dfs : ∀ (r : Range) (q : List PTree),
    machVisitR ⟨r, ⟨q, false⟩⟩ = dfsF q
  | _, [] => machVisitR_nil _ rfl
  | r, .node pr cs :: rest => by
    rw [machVisitR_cons ⟨r, ⟨.node pr cs :: rest, false⟩⟩ pr cs rest rfl]
    have hnext : (RangeState.next ⟨r, ⟨.node pr cs :: rest, false⟩⟩) =
        ⟨r, ⟨cs ++ rest, false⟩⟩ := by
      simp [RangeState.next, Iter.isEnd, Iter.inc]
    rw [hnext, machVisitR_eq_dfs r (cs ++ rest)]
    simp [dfsF, dfsT, dfsF_append]
termination_by r q => sizeF q
decreasing_by simp [sizeF, sizeF_append, sizeT]

theorem machVisitE_skip : ∀ (r : Range) (S : List SdfPath) (w : List PTree),
    machVisitE ⟨r, ⟨skipTo S w, false⟩, S⟩ = visitF S w
  | r, S, w => by
    cases hsk : skipTo S w with
    | nil =>
      rw [machVisitE_nil _ (by simp [hsk])]
      have h1 := visitF_skipTo S w
      rw [hsk] at h1
      simp [visitF] at h1
      exact h1.symm
    | cons t rest' =>
      cases t with
      | node pr' cs' =>
        rw [machVisitE_cons _ pr' cs' rest' rfl]
        have hnext : ExcludeState.next ⟨r, ⟨.node pr' cs' :: rest', false⟩, S⟩ =
            ⟨r, ⟨skipTo S (cs' ++ rest'), false⟩, S⟩ := by
          simp [ExcludeState.next, Iter.isEnd, Iter.inc]
        rw [hnext, machVisitE_skip r S (cs' ++ rest')]
        have hok := skipTo_head_ok S w pr' cs' rest' hsk
        rw [← visitF_skipTo S w, hsk]
        simp [visitF, visitT, hok.1, hok.2, visitF_append]
termination_by r S w => sizeF w
decreasing_by
  have h1 := skipTo_size_le S w
  rw [hsk] at h1
  simp [sizeF, sizeF_append, sizeT] at h1 ⊢
  omega

theorem machVisitE_head (r : Range) (S : List SdfPath) (q : List PTree) :
    machVisitE ⟨r, ⟨q, false⟩, S⟩ = headVisit S q := by
  cases q with
  | nil => rw [machVisitE_nil _ rfl]; rfl
  | cons t rest =>
    cases t with
    | node pr cs =>
      rw [machVisitE_cons _ pr cs rest rfl]
      have hnext : ExcludeState.next ⟨r, ⟨.node pr cs :: rest, false⟩, S⟩ =
          ⟨r, ⟨skipTo S (cs ++ rest), false⟩, S⟩ := by
        simp [ExcludeState.next, Iter.isEnd, Iter.inc]
      rw [hnext, machVisitE_skip]
      rfl

/-- The concatenated default-predicate depth-first sequences of the map
entries from index `k` on. -/
def tailSeq (m : List MapEntry) (k : Nat) : List Prim :=
  ((m.drop k).map fun e => dfsF e.rangeDefault).flatten

theorem tailSeq_none (m : List MapEntry) (k : Nat) (h : m[k]? = none) :
    tailSeq m k = [] := by
  unfold tailSeq; rw [drop_get?_none m k h]; rfl

theorem tailSeq_some (m : List MapEntry) (k : Nat) (e : MapEntry)
    (h : m[k]? = some e) :
    tailSeq m k = dfsF e.rangeDefault ++ tailSeq m (k + 1) := by
  unfold tailSeq; rw [drop_get?_cons m k e h]; simp

theorem machVisitM_run : ∀ (m : List MapEntry) (k : Nat) (r : Range)
    (q : List PTree), q ≠ [] → (∀ e ∈ m.drop (k + 1), e.rangeDefault ≠ []) →
    machVisitM ⟨false, m, k, r, ⟨q, false⟩⟩ = some (dfsF q ++ tailSeq m (k + 1))
  | _, _, _, [], hq, _ => absurd rfl hq
  | m, k, r, .node pr cs :: rest, _, hne => by
    rw [machVisitM_cons _ pr cs rest rfl rfl]
    cases hcr : cs ++ rest with
    | nil =>
      have hcs : cs = [] := (List.append_eq_nil.mp hcr).1
      have hrest : rest = [] := (List.append_eq_nil.mp hcr).2
      subst hcs; subst hrest
      rcases hget : m[k + 1]? with _ | e
      · have hnext : MapState.next ⟨false, m, k, r, ⟨[.node pr []], false⟩⟩ =
            ⟨true, m, k + 1, r, ⟨[], false⟩⟩ := by
          simp [MapState.next, Iter.isEnd, Iter.inc, hget]
        rw [hnext, machVisitM_atEnd _ rfl, tailSeq_none m (k + 1) hget]
        simp [dfsF, dfsT]
      · have hnext : MapState.next ⟨false, m, k, r, ⟨[.node pr []], false⟩⟩ =
            ⟨false, m, k + 1, e.rangeDefault, ⟨e.rangeDefault, false⟩⟩ := by
          simp [MapState.next, Iter.isEnd, Iter.inc, hget, Range.start]
        have hmem : e ∈ m.drop (k + 1) := by
          rw [drop_get?_cons m (k + 1) e hget]; exact List.mem_cons_self _ _
        have hrd : e.rangeDefault ≠ [] := hne e hmem
        have hne2 : ∀ e' ∈ m.drop (k + 2), e'.rangeDefault ≠ [] := by
          intro e' he'
          apply hne
          have hsub : List.Sublist (m.drop (k + 2)) (m.drop (k + 1)) :=
            List.drop_sublist_drop_left m (by omega)
          exact hsub.subset he'
        rw [hnext,
            machVisitM_run m (k + 1) e.rangeDefault e.rangeDefault hrd hne2,
            tailSeq_some m (k + 1) e hget]
        simp [dfsF, dfsT]
    | cons t ts =>
      have hnext : MapState.next ⟨false, m, k, r, ⟨.node pr cs :: rest, false⟩⟩ =
          ⟨false, m, k, r, ⟨t :: ts, false⟩⟩ := by
        simp [MapState.next, Iter.isEnd, Iter.inc, hcr]
      rw [hnext, machVisitM_run m k r (t :: ts) (by simp) hne, ← hcr]
      simp [dfsF, dfsT, dfsF_append]
termination_by m k r q => sizeF q + remS m (k + 1)
decreasing_by
  · have h1 := remS_get m (k + 1) e hget
    simp [sizeF, sizeT]
    omega
  · have h1 : sizeF (t :: ts) = sizeF (cs ++ rest) := by rw [hcr]
    rw [h1, sizeF_append]
    simp [sizeF, sizeT]

-- relating the exclusion-filtered sequence to the specification sequence

theorem visitF_eq_keptF : ∀ (S : List SdfPath) (q : List PTree),
    allValidF q = true → visitF S q = keptF S q
  | _, [], _ => rfl
  | S, .node pr cs :: rest, h => by
    simp only [allValidF, allValidT, Bool.and_eq_true] at h
    obtain ⟨⟨hv, hcs⟩, hrest⟩ := h
    by_cases hm : pr.path ∈ S
    · simp [visitF, visitT, keptF, keptT, hv, hm,
        visitF_eq_keptF S rest hrest]
    · simp [visitF, visitT, keptF, keptT, hv, hm,
        visitF_eq_keptF S cs hcs, visitF_eq_keptF S rest hrest]
termination_by S q => sizeF q
decreasing_by
  all_goals simp [sizeF, sizeT]
  all_goals omega

theorem mem_keptF_iff : ∀ (S : List SdfPath) (x : Prim) (q : List PTree),
    x ∈ keptF S q ↔ cleanOccF S x q
  | S, x, [] => by simp [keptF, cleanOccF]
  | S, x, .node pr cs :: rest => by
    by_cases hm : pr.path ∈ S
    · simp [keptF, keptT, cleanOccF, cleanOccT, hm, mem_keptF_iff S x rest]
    · simp [keptF, keptT, cleanOccF, cleanOccT, hm, mem_keptF_iff S x cs,
        mem_keptF_iff S x rest]
      tauto
termination_by S x q => sizeF q
decreasing_by
  all_goals simp [sizeF, sizeT]
  all_goals omega

theorem keptF_sublist : ∀ (S : List SdfPath) (q : List PTree),
    List.Sublist (keptF S q) (dfsF q)
  | _, [] => .slnil
  | S, .node pr cs :: rest => by
    by_cases hm : pr.path ∈ S
    · simp only [keptF, keptT, hm, if_true, dfsF, dfsT, List.nil_append]
      exact (keptF_sublist S rest).trans (List.sublist_append_right _ _)
    · simp only [keptF, keptT, hm, if_false, dfsF, dfsT, List.cons_append]
      exact ((keptF_sublist S cs).append (keptF_sublist S rest)).cons₂ pr
termination_by S q => sizeF q
decreasing_by
  all_goals simp [sizeF, sizeT]
  all_goals omega

theorem keptF_nodup (S : List SdfPath) (q : List PTree)
    (h : (pathsF q).Nodup) : (keptF S q).Nodup := by
  have hsub : List.Sublist ((keptF S q).map Prim.path) (pathsF q) :=
    (keptF_sublist S q).map _
  exact (h.sublist hsub).of_map

theorem cleanOcc_not_excluded : ∀ (S : List SdfPath) (x : Prim)
    (q : List PTree), cleanOccF S x q → x.path ∉ S
  | S, x, [], h => by simp [cleanOccF] at h
  | S, x, .node pr cs :: rest, h => by
    simp only [cleanOccF, cleanOccT] at h
    rcases h with ⟨hnm, hx | hcs⟩ | hrest
    · rw [hx]; exact hnm
    · exact cleanOcc_not_excluded S x cs hcs
    · exact cleanOcc_not_excluded S x rest hrest
termination_by S x q => sizeF q
decreasing_by
  all_goals simp [sizeF, sizeT]
  all_goals omega

-- ------------------------------------------------------------------ --
-- Driver operation sequences                                          --
-- ------------------------------------------------------------------ --

/-- An operation a driver may perform between observations: advance or
prune (reset is treated separately). -/
inductive Op : Type where
  | nxt : Op
  | prn : Op

def RangeState.applyOp (s : RangeState) : Op → RangeState
  | .nxt => s.next
  | .prn => s.pruneChildren

def RangeState.run (s : RangeState) : List Op → RangeState
  | [] => s
  | o :: L => (s.applyOp o).run L

def MapState.applyOp (s : MapState) : Op → MapState
  | .nxt => s.next
  | .prn => s.pruneChildren

def MapState.run (s : MapState) : List Op → MapState
  | [] => s
  | o :: L => (s.applyOp o).run L

def ExcludeState.applyOp (s : ExcludeState) : Op → ExcludeState
  | .nxt => s.next
  | .prn => s.pruneChildren

def ExcludeState.run (s : ExcludeState) : List Op → ExcludeState
  | [] => s
  | o :: L => (s.applyOp o).run L

/-- Driver operations including `reset`. -/
inductive ROp : Type where
  | nxt : ROp
  | prn : ROp
  | rst : ROp

def MapState.applyROp (s : MapState) : ROp → MapState
  | .nxt => s.next
  | .prn => s.pruneChildren
  | .rst => s.reset

def MapState.runR (s : MapState) : List ROp → MapState
  | [] => s
  | o :: L => (s.applyROp o).runR L

-- at-end stability step lemmas

theorem nextR_of_atEnd (s : RangeState) (h : s.atEnd = true) : s.next = s := by
  simp only [RangeState.atEnd] at h
  simp [RangeState.next, h]

theorem pruneR_of_atEnd (s : RangeState) (h : s.atEnd = true) :
    s.pruneChildren = s := by
  simp [RangeState.pruneChildren, h]

theorem rangeRun_of_atEnd (s : RangeState) (h : s.atEnd = true) :
    ∀ L : List Op, s.run L = s
  | [] => rfl
  | o :: L => by
    cases o with
    | nxt =>
        show (s.next).run L = s
        rw [nextR_of_atEnd s h]; exact rangeRun_of_atEnd s h L
    | prn =>
        show (s.pruneChildren).run L = s
        rw [pruneR_of_atEnd s h]; exact rangeRun_of_atEnd s h L

theorem nextM_preserves_atEnd (s : MapState) (h : s.mAtEnd = true) :
    s.next.mAtEnd = true := by
  unfold MapState.next
  split
  · exact h
  · dsimp only
    split
    · split
      · rfl
      · exact h
    · exact h

theorem pruneM_mAtEnd (s : MapState) : s.pruneChildren.mAtEnd = s.mAtEnd := by
  unfold MapState.pruneChildren
  split <;> rfl

theorem mapRun_atEnd (s : MapState) (h : s.mAtEnd = true) :
    ∀ L : List Op, (s.run L).mAtEnd = true
  | [] => h
  | o :: L => by
    cases o with
    | nxt =>
        exact mapRun_atEnd s.next (nextM_preserves_atEnd s h) L
    | prn =>
        exact mapRun_atEnd s.pruneChildren (by rw [pruneM_mAtEnd]; exact h) L

theorem nextE_of_atEnd (s : ExcludeState) (h : s.atEnd = true) : s.next = s := by
  simp only [ExcludeState.atEnd] at h
  simp [ExcludeState.next, h]

theorem pruneE_mIter_pending (s : ExcludeState) :
    s.pruneChildren.mIter.pending = s.mIter.pending := rfl

theorem pruneE_atEnd (s : ExcludeState) : s.pruneChildren.atEnd = s.atEnd := rfl

theorem excludeRun_atEnd (s : ExcludeState) (h : s.atEnd = true) :
    ∀ L : List Op, (s.run L).atEnd = true
  | [] => h
  | o :: L => by
    cases o with
    | nxt =>
        show (s.next.run L).atEnd = true
        rw [nextE_of_atEnd s h]
        exact excludeRun_atEnd s h L
    | prn =>
        exact excludeRun_atEnd s.pruneChildren (by rw [pruneE_atEnd]; exact h) L

-- prune-correctness invariants

/-- No path of the forest `q` lies in `D`. -/
def disjPaths (D : List SdfPath) (q : List PTree) : Prop :=
  ∀ p, p ∈ pathsF q → p ∉ D

/-- Invariant of an iterator after the subtree of a node with descendant
paths `D` has been pruned: either the prune flag is still set on that node
(and the rest of the stack avoids `D`), or the whole pending stack avoids
`D`. -/
def InvIter (D : List SdfPath) (i : Iter) : Prop :=
  (i.prune = true ∧ ∃ pr cs rest, i.pending = .node pr cs :: rest ∧
    pr.path ∉ D ∧ disjPaths D rest)
  ∨ disjPaths D i.pending

theorem mem_pathsF_inc (i : Iter) (p : SdfPath)
    (h : p ∈ pathsF (Iter.inc i).pending) : p ∈ pathsF i.pending := by
  obtain ⟨q, b⟩ := i
  cases q with
  | nil => exact h
  | cons t rest =>
    cases t with
    | node pr cs =>
      rw [pathsF_cons]
      cases b with
      | true =>
          simp [Iter.inc] at h
          simp [h]
      | false =>
          simp [Iter.inc, pathsF_append] at h
          simp
          tauto

theorem cur?_path_mem (i : Iter) (x : Prim) (h : i.cur? = some x) :
    x.path ∈ pathsF i.pending := by
  obtain ⟨q, b⟩ := i
  cases q with
  | nil => simp [Iter.cur?] at h
  | cons t rest =>
    cases t with
    | node pr cs =>
      simp only [Iter.cur?] at h
      cases h
      rw [pathsF_cons]
      simp

theorem InvIter_inc (D : List SdfPath) (i : Iter) (h : InvIter D i) :
    disjPaths D (Iter.inc i).pending := by
  rcases h with ⟨hpr, pr, cs, rest, hp, hprD, hrest⟩ | hdisj
  · obtain ⟨q, b⟩ := i
    simp only at hp hpr
    subst hp; subst hpr
    exact hrest
  · intro p hp
    exact hdisj p (mem_pathsF_inc i p hp)

theorem InvIter_cur (D : List SdfPath) (i : Iter) (h : InvIter D i)
    (x : Prim) (hc : i.cur? = some x) : x.path ∉ D := by
  rcases h with ⟨_, pr, cs, rest, hp, hprD, _⟩ | hdisj
  · obtain ⟨q, b⟩ := i
    simp only at hp
    subst hp
    simp only [Iter.cur?] at hc
    cases hc
    exact hprD
  · exact hdisj x.path (cur?_path_mem i x hc)

theorem InvIter_pruneFlag (D : List SdfPath) (i : Iter) (h : InvIter D i) :
    InvIter D ⟨i.pending, true⟩ := by
  rcases h with ⟨hpr, pr, cs, rest, hp, hprD, hrest⟩ | hdisj
  · exact Or.inl ⟨rfl, pr, cs, rest, hp, hprD, hrest⟩
  · exact Or.inr hdisj

theorem InvR_step (D : List SdfPath) (s : RangeState) (o : Op)
    (h : InvIter D s.mIter) : InvIter D (s.applyOp o).mIter := by
  cases o with
  | nxt =>
    show InvIter D s.next.mIter
    unfold RangeState.next
    split
    · exact h
    · exact Or.inr (InvIter_inc D s.mIter h)
  | prn =>
    show InvIter D s.pruneChildren.mIter
    unfold RangeState.pruneChildren
    split
    · exact h
    · exact InvIter_pruneFlag D s.mIter h

theorem rangeRun_Inv (D : List SdfPath) (s : RangeState)
    (h : InvIter D s.mIter) : ∀ L : List Op, InvIter D (s.run L).mIter
  | [] => h
  | o :: L => rangeRun_Inv D (s.applyOp o) (InvR_step D s o h) L

theorem InvE_step (D : List SdfPath) (s : ExcludeState) (o : Op)
    (h : InvIter D s.mIter) : InvIter D (s.applyOp o).mIter := by
  cases o with
  | nxt =>
    show InvIter D s.next.mIter
    unfold ExcludeState.next
    split
    · exact h
    · refine Or.inr ?_
      intro p hp
      exact InvIter_inc D s.mIter h p
        (pathsF_skipTo_sub s.mPathSet _ p hp)
  | prn =>
    exact InvIter_pruneFlag D s.mIter h

theorem excludeRun_Inv (D : List SdfPath) (s : ExcludeState)
    (h : InvIter D s.mIter) : ∀ L : List Op, InvIter D (s.run L).mIter
  | [] => h
  | o :: L => excludeRun_Inv D (s.applyOp o) (InvE_step D s o h) L

/-- For the multi-range strategy the invariant also requires every entry the
map iterator has not yet reached to avoid `D`. -/
def InvM (D : List SdfPath) (s : MapState) : Prop :=
  InvIter D s.mIter ∧
  ∀ j e, s.mPrimMapIter < j → s.mPrimMap[j]? = some e →
    disjPaths D e.rangeDefault

theorem InvM_step (D : List SdfPath) (s : MapState) (o : Op)
    (h : InvM D s) : InvM D (s.applyOp o) := by
  obtain ⟨hI, hL⟩ := h
  cases o with
  | nxt =>
    show InvM D s.next
    unfold MapState.next
    split
    · exact ⟨hI, hL⟩
    · dsimp only
      split
      · split
        · rename_i hend _
          constructor
          · refine Or.inr ?_
            intro p hp
            exact InvIter_inc D s.mIter hI p hp
          · intro j e hj he
            exact hL j e (by dsimp only at hj; omega) he
        · rename_i hend e hget
          constructor
          · exact Or.inr (hL (s.mPrimMapIter + 1) e (by omega) hget)
          · intro j e' hj he'
            exact hL j e' (by dsimp only at hj; omega) he'
      · constructor
        · exact Or.inr (InvIter_inc D s.mIter hI)
        · exact hL
  | prn =>
    show InvM D s.pruneChildren
    unfold MapState.pruneChildren
    split
    · exact ⟨hI, hL⟩
    · exact ⟨InvIter_pruneFlag D s.mIter hI, hL⟩

theorem mapRun_Inv (D : List SdfPath) (s : MapState)
    (h : InvM D s) : ∀ L : List Op, InvM D (s.run L)
  | [] => h
  | o :: L => mapRun_Inv D (s.applyOp o) (InvM_step D s o h) L

-- reset behaviour

theorem resetR_eq_init (s : RangeState) : s.reset = RangeState.init s.mRange :=
  rfl

theorem resetE_eq_init (s : ExcludeState) :
    s.reset = ExcludeState.init s.mRange s.mPathSet := rfl

theorem applyROp_mPrimMap (s : MapState) (o : ROp) :
    (s.applyROp o).mPrimMap = s.mPrimMap := by
  cases o with
  | nxt =>
    show s.next.mPrimMap = s.mPrimMap
    unfold MapState.next
    split
    · rfl
    · dsimp only
      split
      · split <;> rfl
      · rfl
  | prn =>
    show s.pruneChildren.mPrimMap = s.mPrimMap
    unfold MapState.pruneChildren
    split <;> rfl
  | rst =>
    show s.reset.mPrimMap = s.mPrimMap
    unfold MapState.reset
    dsimp only
    split
    · rfl
    · split <;> rfl

theorem runR_mPrimMap (s : MapState) : ∀ L : List ROp,
    (s.runR L).mPrimMap = s.mPrimMap
  | [] => rfl
  | o :: L => by
    show ((s.applyROp o).runR L).mPrimMap = s.mPrimMap
    rw [runR_mPrimMap (s.applyROp o) L, applyROp_mPrimMap]

theorem initM_mPrimMap (m : List MapEntry) : (MapState.init m).mPrimMap = m := by
  show ((⟨true, m, 0, [], ⟨[], false⟩⟩ : MapState).applyROp .rst).mPrimMap = m
  rw [applyROp_mPrimMap]

theorem resetM_eq_init (s : MapState) (e : MapEntry)
    (h0 : s.mPrimMap[0]? = some e) (hne : e.rangeProxies.isEmpty = false) :
    s.reset = MapState.init s.mPrimMap := by
  unfold MapState.init MapState.reset
  simp only [h0, hne, Bool.false_eq_true, if_false]

theorem initM_degenerate (m : List MapEntry)
    (hdeg : m[0]? = none ∨ ∃ e, m[0]? = some e ∧ e.rangeProxies = []) :
    MapState.init m = ⟨true, m, 0, [], ⟨[], false⟩⟩ := by
  rcases hdeg with h | ⟨e, h, he⟩
  · unfold MapState.init MapState.reset
    simp only [h]
  · unfold MapState.init MapState.reset
    simp only [h, he, List.isEmpty_nil, if_true]

theorem degenerate_applyROp (m : List MapEntry)
    (hdeg : m[0]? = none ∨ ∃ e, m[0]? = some e ∧ e.rangeProxies = [])
    (o : ROp) :
    (⟨true, m, 0, [], ⟨[], false⟩⟩ : MapState).applyROp o =
      ⟨true, m, 0, [], ⟨[], false⟩⟩ := by
  cases o with
  | nxt => rfl
  | prn => rfl
  | rst =>
    show MapState.reset _ = _
    unfold MapState.reset
    rcases hdeg with h | ⟨e, h, he⟩
    · simp only [h]
    · simp only [h, he, List.isEmpty_nil, if_true]

theorem degenerate_runR (m : List MapEntry)
    (hdeg : m[0]? = none ∨ ∃ e, m[0]? = some e ∧ e.rangeProxies = []) :
    ∀ L : List ROp, (MapState.init m).runR L = MapState.init m := by
  rw [initM_degenerate m hdeg]
  intro L
  induction L with
  | nil => rfl
  | cons o L ih =>
    show ((MapState.applyROp _ o).runR L) = _
    rw [degenerate_applyROp m hdeg o, ih]

theorem resetM_runR_eq_init (m : List MapEntry) (L : List ROp) :
    ((MapState.init m).runR L).reset = MapState.init m := by
  rcases h0 : m[0]? with _ | e
  · have hdeg : m[0]? = none ∨ ∃ e, m[0]? = some e ∧ e.rangeProxies = [] :=
      Or.inl h0
    rw [degenerate_runR m hdeg L]
    show (MapState.init m).applyROp .rst = MapState.init m
    rw [initM_degenerate m hdeg, degenerate_applyROp m hdeg,
        ← initM_degenerate m hdeg]
  · by_cases he : e.rangeProxies.isEmpty
    · have hdeg : m[0]? = none ∨ ∃ e, m[0]? = some e ∧ e.rangeProxies = [] :=
        Or.inr ⟨e, h0, List.isEmpty_iff.mp he⟩
      rw [degenerate_runR m hdeg L]
      show (MapState.init m).applyROp .rst = MapState.init m
      rw [initM_degenerate m hdeg, degenerate_applyROp m hdeg,
          ← initM_degenerate m hdeg]
    · have hm : ((MapState.init m).runR L).mPrimMap = m := by
        rw [runR_mPrimMap, initM_mPrimMap]
      have h0' : ((MapState.init m).runR L).mPrimMap[0]? = some e := by
        rw [hm]; exact h0
      have := resetM_eq_init ((MapState.init m).runR L) e h0'
        (Bool.not_eq_true _ |>.mp he)
      rw [this, hm]

-- remaining bridges for the claims

theorem headVisit_eq_keptF (S : List SdfPath) (r : List PTree)
    (hval : allValidF r = true) (hfst : ∀ t ∈ r.take 1, t.prim.path ∉ S) :
    headVisit S r = keptF S r := by
  cases r with
  | nil => rfl
  | cons t rest =>
    cases t with
    | node pr cs =>
      have hm : pr.path ∉ S := by
        have := hfst (.node pr cs) (by simp)
        simpa [PTree.prim] using this
      simp only [allValidF, allValidT, Bool.and_eq_true] at hval
      obtain ⟨⟨hv, hcs⟩, hrest⟩ := hval
      have hval2 : allValidF (cs ++ rest) = true := by
        rw [allValidF_append, hcs, hrest]; rfl
      show pr :: visitF S (cs ++ rest) = keptF S (.node pr cs :: rest)
      rw [visitF_eq_keptF S (cs ++ rest) hval2, keptF_append]
      simp [keptF, keptT, hm]

theorem visitF_valid : ∀ (S : List SdfPath) (q : List PTree) (x : Prim),
    x ∈ visitF S q → x.valid = true
  | S, [], x, h => by simp [visitF] at h
  | S, .node pr cs :: rest, x, h => by
    simp only [visitF, visitT, List.mem_append] at h
    by_cases hv : pr.valid
    · by_cases hm : pr.path ∈ S
      · simp only [hv, hm, if_true] at h
        rcases h with h | h
        · simp at h
        · exact visitF_valid S rest x h
      · simp only [hv, hm, if_true, if_false] at h
        rcases h with h | h
        · rcases List.mem_cons.mp h with rfl | h
          · exact hv
          · exact visitF_valid S cs x h
        · exact visitF_valid S rest x h
    · simp only [Bool.not_eq_true] at hv
      simp only [hv, Bool.false_eq_true, if_false] at h
      rcases h with h | h
      · exact visitF_valid S cs x h
      · exact visitF_valid S rest x h
termination_by S q x => sizeF q
decreasing_by
  all_goals simp [sizeF, sizeT]
  all_goals omega

theorem initM_cons (e : MapEntry) (es : List MapEntry)
    (hne : e.rangeProxies.isEmpty = false) :
    MapState.init (e :: es) =
      ⟨false, e :: es, 0, e.rangeProxies, ⟨e.rangeProxies, false⟩⟩ := by
  unfold MapState.init MapState.reset
  simp only [List.getElem?_cons_zero, hne, Bool.false_eq_true, if_false]
  rfl

-- convenient initial-state bridges

theorem machVisitR_init (r : Range) :
    machVisitR (RangeState.init r) = dfsF r := machVisitR_eq_dfs r r

theorem machVisitE_init (r : Range) (S : List SdfPath) :
    machVisitE (ExcludeState.init r S) = headVisit S r := machVisitE_head r S r

-- ------------------------------------------------------------------ --
-- Concrete scenarios                                                  --
-- ------------------------------------------------------------------ --

/-- A single traversable leaf prim at path `p`. -/
def leaf (p : SdfPath) : PTree := .node ⟨p, true⟩ []

/-- Map entry whose prim yields a one-node range under either predicate. -/
def entA : MapEntry := ⟨["a"], [leaf ["a"]], [leaf ["a"]]⟩

/-- Map entry whose prim yields an empty range (e.g. the prim fails the
traversal predicate). -/
def entEmpty : MapEntry := ⟨["b"], [], []⟩

/-- Another one-node map entry. -/
def entC : MapEntry := ⟨["c"], [leaf ["c"]], [leaf ["c"]]⟩

/-- Scenario E map: the second root yields an empty range. -/
def stuckMap : List MapEntry := [entA, entEmpty, entC]

theorem stuckMap_machVisit_none :
    machVisitM (MapState.init stuckMap) = none := by
  rw [machVisitM_cons (MapState.init stuckMap) ⟨["a"], true⟩ [] [] rfl rfl,
      machVisitM_stuck (MapState.init stuckMap).next rfl rfl]
  rfl

-- ------------------------------------------------------------------ --
-- Claims                                                              --
-- ------------------------------------------------------------------ --

/-- C1: evaluation at the failing input.  For the RootSet
`{/a ↦ leaf, /b ↦ prim with empty range, /c ↦ leaf}`, the `next()` call
that finishes the first root rolls onto the second root's empty range and
leaves the cursor with `atEnd() == false` but no current node; from there
every further `next()` call is a no-op (its guard
`mIter != mRange.end()` fails), so the cursor is permanently stuck and the
driver sequence is undefined (`none`) — it never reaches `atEnd()`,
contradicting the claimed rollover. -/
theorem c1_rollover_stuck_eval :
    (MapState.init stuckMap).atEnd = false
    ∧ (MapState.init stuckMap).next.atEnd = false
    ∧ (MapState.init stuckMap).next.mIter.cur? = none
    ∧ (MapState.init stuckMap).next.next = (MapState.init stuckMap).next
    ∧ machVisitM (MapState.init stuckMap) = none :=
  ⟨rfl, rfl, rfl, rfl, stuckMap_machVisit_none⟩

/-- C2 counterexample: over the range rooted at `/a` with exclusion set
`{/a}`, the node `/a` (whose path is in the exclusion set) and its
descendant `/a/b` are both observed by the driver: the initial position
set by construction/reset is never exclusion-checked. -/
theorem c2_counterexample :
    (⟨["a"], true⟩ : Prim).path ∈ [(["a"] : SdfPath)]
    ∧ machVisitE
        (ExcludeState.init [.node ⟨["a"], true⟩ [.node ⟨["a", "b"], true⟩ []]]
          [["a"]]) =
      [⟨["a"], true⟩, ⟨["a", "b"], true⟩] := by
  refine ⟨by decide, ?_⟩
  rw [machVisitE_init]
  decide

/-- C2 (amended): provided every prim of the range is a valid handle and
the range's first node is not excluded, the driver-observed sequence of an
Exclusion-Filtered cursor is exactly the nodes with no excluded
self-or-ancestor, in depth-first order: membership is equivalent to having
an occurrence with no excluded ancestor, every node whose path is in `S`
is absent, and (when the range's paths are distinct) no node is observed
twice. -/
theorem c2_exclusion_amended (r : Range) (S : List SdfPath)
    (hval : allValidF r = true) (hfst : ∀ t ∈ r.take 1, t.prim.path ∉ S) :
    machVisitE (ExcludeState.init r S) = keptF S r
    ∧ (∀ x : Prim, x ∈ machVisitE (ExcludeState.init r S) ↔ cleanOccF S x r)
    ∧ (∀ x : Prim, x.path ∈ S → x ∉ machVisitE (ExcludeState.init r S))
    ∧ ((pathsF r).Nodup → (machVisitE (ExcludeState.init r S)).Nodup) := by
  have hbr : machVisitE (ExcludeState.init r S) = keptF S r := by
    rw [machVisitE_init]
    exact headVisit_eq_keptF S r hval hfst
  refine ⟨hbr, ?_, ?_, ?_⟩
  · intro x
    rw [hbr]
    exact mem_keptF_iff S x r
  · intro x hx hmem
    rw [hbr] at hmem
    exact cleanOcc_not_excluded S x r ((mem_keptF_iff S x r).mp hmem) hx
  · intro hnd
    rw [hbr]
    exact keptF_nodup S r hnd

/-- C2 witness: the amended theorem applied to the concrete range
`/a → /a/b` with exclusion set `{/a/b}`. -/
theorem c2_witness :
    machVisitE
        (ExcludeState.init [.node ⟨["a"], true⟩ [.node ⟨["a", "b"], true⟩ []]]
          [["a", "b"]]) =
      keptF [["a", "b"]]
        [.node ⟨["a"], true⟩ [.node ⟨["a", "b"], true⟩ []]] :=
  (c2_exclusion_amended _ _ (by decide) (by decide)).1

/-- C3 counterexample: on the Scenario-E RootSet the multi-range driver
never terminates (`none`), while the concatenation of the single-range
sequences of the non-empty roots is `[/a, /c]` — the claimed equality
fails because an empty non-first root wedges the cursor. -/
theorem c3_counterexample :
    machVisitM (MapState.init stuckMap) = none
    ∧ machVisitR (RangeState.init entA.rangeProxies) ++
        machVisitR (RangeState.init entEmpty.rangeDefault) ++
        machVisitR (RangeState.init entC.rangeDefault) =
      [⟨["a"], true⟩, ⟨["c"], true⟩] := by
  refine ⟨stuckMap_machVisit_none, ?_⟩
  rw [machVisitR_init, machVisitR_init, machVisitR_init]
  decide

/-- C3 (amended): when the first root's instance-proxy range is nonempty
and every subsequent root's default-predicate range is nonempty, the
multi-range driver sequence equals the concatenation, in map order, of the
single-range driver sequences over the per-root ranges the multi-range
cursor builds (the first root's with the instance-proxy predicate, the
others' with the default predicate). -/
theorem c3_concat_amended (e : MapEntry) (es : List MapEntry)
    (h1 : e.rangeProxies ≠ []) (h2 : ∀ e' ∈ es, e'.rangeDefault ≠ []) :
    machVisitM (MapState.init (e :: es)) =
      some (machVisitR (RangeState.init e.rangeProxies) ++
        (es.map fun e' => machVisitR (RangeState.init e'.rangeDefault)).flatten) := by
  have hne : e.rangeProxies.isEmpty = false := List.isEmpty_eq_false.mpr h1
  rw [initM_cons e es hne,
      machVisitM_run (e :: es) 0 e.rangeProxies e.rangeProxies h1
        (by
          intro e' he'
          simp only [List.drop_succ_cons, List.drop_zero] at he'
          exact h2 e' he'),
      machVisitR_init]
  have hfun : (fun e' : MapEntry => machVisitR (RangeState.init e'.rangeDefault))
      = fun e' : MapEntry => dfsF e'.rangeDefault :=
    funext fun e' => machVisitR_init _
  rw [hfun]
  unfold tailSeq
  simp only [List.drop_succ_cons, List.drop_zero]

/-- C3 witness: the amended theorem applied to the two-root map
`{/a, /c}`. -/
theorem c3_witness :
    machVisitM (MapState.init [entA, entC]) =
      some (machVisitR (RangeState.init entA.rangeProxies) ++
        ([entC].map fun e' => machVisitR (RangeState.init e'.rangeDefault)).flatten) :=
  c3_concat_amended entA [entC] (by simp [entA])
    (by
      intro e' he'
      simp only [List.mem_singleton] at he'
      subst he'
      simp [entC])

/-- C4 counterexample: on an empty source every strategy reports
`atEnd() == true`, and `getCurrent()` nevertheless returns normally — it
hands back the stored iterator, which is the range's end-sentinel
position (empty pending stack) — instead of failing fast. -/
theorem c4_counterexample :
    (RangeState.init []).atEnd = true
    ∧ (RangeState.init []).getCurrent.pending = []
    ∧ (MapState.init []).atEnd = true
    ∧ (MapState.init []).getCurrent.pending = []
    ∧ (ExcludeState.init [] []).atEnd = true
    ∧ (ExcludeState.init [] []).getCurrent.pending = [] :=
  ⟨rfl, rfl, rfl, rfl, rfl, rfl⟩

/-- C4 (amended): `getCurrent()` performs no precondition check in any
strategy: it returns the stored iterator unconditionally; for the
Single-Range and Exclusion-Filtered strategies, at end that iterator is
the end sentinel (empty pending position), which is silently handed to
the caller. -/
theorem c4_getCurrent_amended :
    (∀ s : RangeState, s.getCurrent = s.mIter)
    ∧ (∀ s : MapState, s.getCurrent = s.mIter)
    ∧ (∀ s : ExcludeState, s.getCurrent = s.mIter)
    ∧ (∀ s : RangeState, s.atEnd = true → s.getCurrent.pending = [])
    ∧ (∀ s : ExcludeState, s.atEnd = true → s.getCurrent.pending = []) := by
  refine ⟨fun s => rfl, fun s => rfl, fun s => rfl, ?_, ?_⟩
  · intro s h
    exact List.isEmpty_iff.mp h
  · intro s h
    exact List.isEmpty_iff.mp h

/-- C4 witness: the amended theorem applied to an exhausted Single-Range
cursor over the empty range. -/
theorem c4_witness : (RangeState.init []).getCurrent.pending = [] :=
  c4_getCurrent_amended.2.2.2.1 (RangeState.init []) rfl

/-- C5 counterexample: for an Exclusion-Filtered cursor that is at end,
`pruneChildren()` is not a no-op: it forwards unguarded to the underlying
iterator and sets its prune flag, changing the cursor state (the other
two strategies guard the call). -/
theorem c5_counterexample :
    (ExcludeState.init [] []).atEnd = true
    ∧ (ExcludeState.init [] []).pruneChildren ≠ ExcludeState.init [] []
    ∧ (ExcludeState.init [] []).pruneChildren.mIter.prune = true
    ∧ (ExcludeState.init [] []).mIter.prune = false := by
  refine ⟨rfl, ?_, rfl, rfl⟩
  intro h
  have h2 := congrArg (fun s => s.mIter.prune) h
  simp only at h2
  cases h2

/-- C5 (amended): `pruneChildren()` at end is a strict no-op for the
Single-Range and Multi-Range strategies; for the Exclusion-Filtered
strategy it sets the underlying iterator's prune flag even at end, but
leaves the pending position, the at-end answer, the range and the
exclusion set unchanged; in no strategy does `pruneChildren()` advance
the position. -/
theorem c5_prune_amended :
    (∀ s : RangeState, s.atEnd = true → s.pruneChildren = s)
    ∧ (∀ s : MapState, s.atEnd = true → s.pruneChildren = s)
    ∧ (∀ s : RangeState, s.pruneChildren.mIter.pending = s.mIter.pending)
    ∧ (∀ s : MapState, s.pruneChildren.mIter.pending = s.mIter.pending)
    ∧ (∀ s : MapState, s.pruneChildren.mAtEnd = s.mAtEnd)
    ∧ (∀ s : ExcludeState, s.pruneChildren.mIter.pending = s.mIter.pending
        ∧ s.pruneChildren.atEnd = s.atEnd
        ∧ s.pruneChildren.mRange = s.mRange
        ∧ s.pruneChildren.mPathSet = s.mPathSet) := by
  refine ⟨?_, ?_, ?_, ?_, ?_, ?_⟩
  · intro s h
    unfold RangeState.pruneChildren
    simp [h]
  · intro s h
    unfold MapState.pruneChildren
    simp [MapState.atEnd] at h
    simp [MapState.atEnd, h]
  · intro s
    unfold RangeState.pruneChildren
    split <;> rfl
  · intro s
    unfold MapState.pruneChildren
    split <;> rfl
  · intro s
    exact pruneM_mAtEnd s
  · intro s
    exact ⟨rfl, rfl, rfl, rfl⟩

/-- C5 witness: the amended theorem applied to an exhausted Single-Range
cursor. -/
theorem c5_witness :
    (RangeState.init []).pruneChildren = RangeState.init [] :=
  c5_prune_amended.1 (RangeState.init []) rfl

/-- C6: for every strategy, once `atEnd()` is true it stays true under any
further sequence of `next()` and `pruneChildren()` calls (no `reset()`). -/
theorem c6_atEnd_stable :
    (∀ (s : RangeState) (L : List Op), s.atEnd = true → (s.run L).atEnd = true)
    ∧ (∀ (s : MapState) (L : List Op), s.atEnd = true → (s.run L).atEnd = true)
    ∧ (∀ (s : ExcludeState) (L : List Op), s.atEnd = true →
        (s.run L).atEnd = true) := by
  refine ⟨?_, ?_, ?_⟩
  · intro s L h
    rw [rangeRun_of_atEnd s h L]
    exact h
  · intro s L h
    exact mapRun_atEnd s h L
  · intro s L h
    exact excludeRun_atEnd s h L

/-- C6 witness: an exhausted Single-Range cursor stays exhausted across a
next-then-prune sequence. -/
theorem c6_witness :
    ((RangeState.init []).run [Op.nxt, Op.prn]).atEnd = true :=
  c6_atEnd_stable.1 (RangeState.init []) [Op.nxt, Op.prn] rfl

-- C7 data: a RootSet whose second root lies inside the first root's subtree

/-- Root prim `/a` of the first overlapping entry. -/
def ovA : Prim := ⟨["a"], true⟩

/-- Prim `/a/b`, both a child of `/a` and the root of the second entry. -/
def ovB : Prim := ⟨["a", "b"], true⟩

/-- First entry: subtree `/a → /a/b`. -/
def ovEnt1 : MapEntry :=
  ⟨["a"], [.node ovA [.node ovB []]], [.node ovA [.node ovB []]]⟩

/-- Second entry: subtree rooted at `/a/b`. -/
def ovEnt2 : MapEntry := ⟨["a", "b"], [.node ovB []], [.node ovB []]⟩

/-- Overlapping RootSet `{/a, /a/b}`. -/
def ovMap : List MapEntry := [ovEnt1, ovEnt2]

/-- C7 counterexample: on the overlapping RootSet `{/a, /a/b}` the
Multi-Range cursor is positioned on `/a`; `pruneChildren()` is invoked and
the very next `next()` makes `/a/b` — a descendant of `/a` — the current
node again, because the rollover enters the second root, which lies inside
the pruned subtree. -/
theorem c7_counterexample :
    (MapState.init ovMap).mIter.cur? = some ovA
    ∧ ((MapState.init ovMap).pruneChildren.run [Op.nxt]).mIter.cur? = some ovB
    ∧ ovB.path ∈ pathsF (PTree.children (.node ovA [.node ovB []])) :=
  ⟨rfl, rfl, by decide⟩

/-- C7 (amended): if `pruneChildren()` is invoked while positioned on a
node `N`, then no later `current()` has the path of a node of `N`'s
child subtrees — for the Single-Range and Exclusion-Filtered strategies
provided the descendant paths do not reappear later in the same pending
stack, and for the Multi-Range strategy provided additionally that no
entry the map iterator has not yet reached contains a descendant path
(the RootSet's roots must be independent). -/
theorem c7_prune_correct_amended :
    (∀ (s : RangeState) (pr : Prim) (cs rest : List PTree),
      s.mIter.pending = .node pr cs :: rest →
      pr.path ∉ pathsF cs →
      (∀ p ∈ pathsF rest, p ∉ pathsF cs) →
      ∀ (L : List Op) (x : Prim),
        (s.pruneChildren.run L).mIter.cur? = some x → x.path ∉ pathsF cs)
    ∧ (∀ (s : ExcludeState) (pr : Prim) (cs rest : List PTree),
      s.mIter.pending = .node pr cs :: rest →
      pr.path ∉ pathsF cs →
      (∀ p ∈ pathsF rest, p ∉ pathsF cs) →
      ∀ (L : List Op) (x : Prim),
        (s.pruneChildren.run L).mIter.cur? = some x → x.path ∉ pathsF cs)
    ∧ (∀ (s : MapState) (pr : Prim) (cs rest : List PTree),
      s.mAtEnd = false →
      s.mIter.pending = .node pr cs :: rest →
      pr.path ∉ pathsF cs →
      (∀ p ∈ pathsF rest, p ∉ pathsF cs) →
      (∀ j e, s.mPrimMapIter < j → s.mPrimMap[j]? = some e →
        ∀ p ∈ pathsF e.rangeDefault, p ∉ pathsF cs) →
      ∀ (L : List Op) (x : Prim),
        (s.pruneChildren.run L).mIter.cur? = some x → x.path ∉ pathsF cs) := by
  refine ⟨?_, ?_, ?_⟩
  · intro s pr cs rest hp hpr hdisj L x hcur
    have hend : s.atEnd = false := by
      simp [RangeState.atEnd, Iter.isEnd, hp]
    have hInv0 : InvIter (pathsF cs) s.pruneChildren.mIter := by
      unfold RangeState.pruneChildren
      rw [hend]
      simp only [Bool.false_eq_true, if_false]
      exact Or.inl ⟨rfl, pr, cs, rest, hp, hpr, hdisj⟩
    exact InvIter_cur (pathsF cs) _
      (rangeRun_Inv (pathsF cs) s.pruneChildren hInv0 L) x hcur
  · intro s pr cs rest hp hpr hdisj L x hcur
    have hInv0 : InvIter (pathsF cs) s.pruneChildren.mIter :=
      Or.inl ⟨rfl, pr, cs, rest, hp, hpr, hdisj⟩
    exact InvIter_cur (pathsF cs) _
      (excludeRun_Inv (pathsF cs) s.pruneChildren hInv0 L) x hcur
  · intro s pr cs rest hend hp hpr hdisj hlater L x hcur
    have hend' : s.atEnd = false := hend
    have hInv0 : InvM (pathsF cs) s.pruneChildren := by
      unfold MapState.pruneChildren
      rw [hend']
      simp only [Bool.false_eq_true, if_false]
      exact ⟨Or.inl ⟨rfl, pr, cs, rest, hp, hpr, hdisj⟩, hlater⟩
    exact InvIter_cur (pathsF cs) _
      (mapRun_Inv (pathsF cs) s.pruneChildren hInv0 L).1 x hcur

/-- C7 witness: pruning at `/a` in a single range `[/a → /a/b, /c]` and
advancing lands on `/c`, whose path is not among `/a`'s descendants. -/
theorem c7_witness :
    (⟨["c"], true⟩ : Prim).path ∉ pathsF [PTree.node ovB []] :=
  c7_prune_correct_amended.1
    (RangeState.init [.node ovA [.node ovB []], leaf ["c"]])
    ovA [.node ovB []] [leaf ["c"]] rfl (by decide) (by decide)
    [Op.nxt] ⟨["c"], true⟩ rfl

/-- C8: `reset()` restores, for every strategy and from any reachable
state, exactly the state of a freshly constructed cursor over the same
source, and is idempotent.  For Single-Range and Exclusion-Filtered this
holds from arbitrary states; for Multi-Range it holds after any sequence
of `next`/`pruneChildren`/`reset` calls from construction. -/
theorem c8_reset_idempotent :
    (∀ s : RangeState, s.reset = RangeState.init s.mRange)
    ∧ (∀ s : RangeState, s.reset.reset = s.reset)
    ∧ (∀ s : ExcludeState, s.reset = ExcludeState.init s.mRange s.mPathSet)
    ∧ (∀ s : ExcludeState, s.reset.reset = s.reset)
    ∧ (∀ (m : List MapEntry) (L : List ROp),
        ((MapState.init m).runR L).reset = MapState.init m)
    ∧ (∀ m : List MapEntry, (MapState.init m).reset = MapState.init m) := by
  refine ⟨fun s => rfl, fun s => rfl, fun s => rfl, fun s => rfl,
    resetM_runR_eq_init, ?_⟩
  intro m
  exact resetM_runR_eq_init m []

-- C9 data: a root whose instance-proxy range has one more node than its
-- default range

/-- Root prim `/x`. -/
def pxA : Prim := ⟨["x"], true⟩

/-- Instance-proxy child `/x/b`, yielded only by the proxy-traversing
predicate. -/
def pxB : Prim := ⟨["x", "b"], true⟩

/-- Prim `/w`. -/
def pW : Prim := ⟨["w"], true⟩

/-- Entry `/x`: proxy range `/x → /x/b`, default range `/x` alone. -/
def entX : MapEntry := ⟨["x"], [.node pxA [.node pxB []]], [.node pxA []]⟩

/-- Entry `/w`: a single leaf under either predicate. -/
def entW : MapEntry := ⟨["w"], [leaf ["w"]], [leaf ["w"]]⟩

/-- C9: construction/reset builds the first root's range with the
instance-proxy predicate, while rollover in `next()` builds subsequent
roots' ranges with the default predicate only; consequently the same root
`/x` yields `/x, /x/b` when it is first in the RootSet but only `/x` when
it is second. -/
theorem c9_first_root_predicate :
    (∀ (e : MapEntry) (es : List MapEntry),
      (MapState.init (e :: es)).mRange = e.rangeProxies)
    ∧ (∀ (b : Bool) (e0 e : MapEntry) (es : List MapEntry) (pr : Prim)
        (r : Range),
        MapState.next ⟨b, e0 :: e :: es, 0, r, ⟨[.node pr []], false⟩⟩ =
          ⟨b, e0 :: e :: es, 1, e.rangeDefault, ⟨e.rangeDefault, false⟩⟩)
    ∧ machVisitM (MapState.init [entX]) = some [pxA, pxB]
    ∧ machVisitM (MapState.init [entW, entX]) = some [pW, pxA] := by
  refine ⟨?_, ?_, ?_, ?_⟩
  · intro e es
    unfold MapState.init MapState.reset
    simp only [List.getElem?_cons_zero]
    split <;> rfl
  · intro b e0 e es pr r
    simp [MapState.next, Iter.isEnd, Iter.inc, Range.start]
  · rw [initM_cons entX [] rfl,
        machVisitM_run [entX] 0 entX.rangeProxies entX.rangeProxies
          (by simp [entX])
          (by intro e' he'; simp at he')]
    decide
  · rw [initM_cons entW [entX] rfl,
        machVisitM_run [entW, entX] 0 entW.rangeProxies entW.rangeProxies
          (by simp [entW, leaf])
          (by
            intro e' he'
            simp only [List.drop_succ_cons, List.drop_zero,
              List.mem_singleton] at he'
            subst he'
            simp [entX])]
    decide

-- C10 data: a subtree containing an invalid prim whose path is excluded

/-- Valid root prim `/r`. -/
def invRoot : Prim := ⟨["r"], true⟩

/-- Invalid prim at `/x` (its path is also in the exclusion set). -/
def invX : Prim := ⟨["x"], false⟩

/-- Valid grandchild `/x/g` beneath the invalid prim. -/
def invG : Prim := ⟨["x", "g"], true⟩

/-- Range `/r → /x → /x/g`. -/
def invRange : Range := [.node invRoot [.node invX [.node invG []]]]

/-- Exclusion set `{/x}`. -/
def invS : List SdfPath := [["x"]]

/-- C10: when the advance loop of the Exclusion-Filtered cursor lands on an
invalid prim, the prim is stepped over without being yielded, without
being tested against the exclusion set and without being pruned: its
children stay on the stack and the loop continues.  Concretely, with the
invalid `/x` in the exclusion set, its child `/x/g` is still visited. -/
theorem c10_invalid_skip :
    (∀ (S : List SdfPath) (p : SdfPath) (cs rest : List PTree),
      skipTo S (.node ⟨p, false⟩ cs :: rest) = skipTo S (cs ++ rest))
    ∧ (∀ (S : List SdfPath) (q : List PTree) (x : Prim),
        x ∈ visitF S q → x.valid = true)
    ∧ machVisitE (ExcludeState.init invRange invS) = [invRoot, invG] := by
  refine ⟨?_, visitF_valid, ?_⟩
  · intro S p cs rest
    rw [skipTo]
    simp
  · rw [machVisitE_init]
    decide

/-- C10 witness: the validity conjunct applied to a concrete singleton
forest. -/
theorem c10_witness : (⟨["k"], true⟩ : Prim).valid = true :=
  c10_invalid_skip.2.1 [] [leaf ["k"]] ⟨["k"], true⟩ (by decide)

end ParsePrim
